import Mathlib

/-!
# A verification of the Trello board exporter's transformation pipeline

This file gives a shallow embedding, in Lean, of the pure data
transformations of `trello-export-board.py`: filename sanitization, XML
escaping, the card transformer (labels, checklists, check-item state dates,
comments), the spreadsheet open/archived split, attachment-download
bookkeeping, and board selection.  I/O boundaries (HTTP, the spreadsheet and
document libraries, the interactive prompt) are modelled as data: a fetch
outcome is a value of an inductive type, the user's prompt answer is a
function argument, a written file is a `(name, content)` pair in a result
list.  Date conversion (`convert_UTC_to_Local_Datetime` + `strftime`, which
depend on the configured timezone and format) is abstracted as a
`String → String` parameter.

Strings are Lean `String`s (lists of characters); where the Python operates
character by character the embedding works on `String.data`.
-/

namespace TrelloExport

/-! ## Character classes

ASCII models of the character classes used by the regexes in
`sanitize_filename`.  Every regex there runs on the output of
`.encode('ascii','ignore')`, so only the ASCII part of Python's `\w` and
`\s` classes is ever exercised. -/

/-- Python regex `\w` restricted to ASCII: `[A-Za-z0-9_]`. -/
def isWordChar (c : Char) : Bool := c.isAlphanum || c = '_'

/-- Python regex `\s` restricted to ASCII: tab through carriage return
(9–13), the separator controls 28–31, and the space (32). -/
def isSpaceChar (c : Char) : Bool :=
  (9 ≤ c.toNat && c.toNat ≤ 13) || (28 ≤ c.toNat && c.toNat ≤ 31) || c.toNat = 32

/-- A character matched by the regex class `[-_\s]` (line 81 of the source). -/
def isDashRun (c : Char) : Bool := c = '-' || c = '_' || isSpaceChar c

/-- A character stripped from the ends by `filename.strip('-_.')`. -/
def isStripChar (c : Char) : Bool := c = '-' || c = '_' || c = '.'

/-! ## `sanitize_filename` (source lines 73–84)

The Python function is a five-stage pipeline:

1. `unicodedata.normalize('NFKD', filename).encode('ascii','ignore')` —
   NFKD-decompose, then drop every non-ASCII byte.  NFKD is the identity on
   ASCII characters, so the composite acts on ASCII text as a plain
   non-ASCII filter; the decomposition tables for non-ASCII characters are
   not modelled (their output is some ASCII string, and every property
   proved below holds for all ASCII intermediate strings).
2. `re.sub(r'[^\.\w\s-]', '', ...)` — keep only dots, word characters,
   whitespace and hyphens.
3. `re.sub(r'[-_\s]+', '-', ...)` — each maximal run of hyphens,
   underscores and whitespace becomes a single hyphen.
4. `re.sub(r'[\.]+', '.', ...)` — each maximal run of dots becomes one dot.
5. `.strip('-_.')` — drop leading and trailing hyphens/underscores/dots.
-/

/-- Stage 1: `.encode('ascii','ignore')` — drop every non-ASCII character. -/
def asciiIgnore (s : List Char) : List Char := s.filter (fun c => c.toNat < 128)

/-- Stage 2: `re.sub(r'[^\.\w\s-]', '', s)`. -/
def keepAllowed (s : List Char) : List Char :=
  s.filter (fun c => c = '.' || isWordChar c || isSpaceChar c || c = '-')

/-- Stage 3 worker.  `re.sub(r'[-_\s]+', '-', s)` replaces each maximal run
of `[-_\s]` characters by one hyphen; equivalently, emit `'-'` at the first
character of each run and drop the rest.  `prev` records whether the
previous character belonged to a run. -/
def collapseDashRuns (prev : Bool) : List Char → List Char
  | [] => []
  | c :: cs =>
    if isDashRun c then
      if prev then collapseDashRuns true cs else '-' :: collapseDashRuns true cs
    else c :: collapseDashRuns false cs

/-- Stage 4 worker.  `re.sub(r'[\.]+', '.', s)`: each maximal dot run
becomes a single dot. -/
def collapseDotRuns (prev : Bool) : List Char → List Char
  | [] => []
  | c :: cs =>
    if c = '.' then
      if prev then collapseDotRuns true cs else '.' :: collapseDotRuns true cs
    else c :: collapseDotRuns false cs

/-- Remove the maximal trailing run of characters satisfying `p`
(the right half of Python's `.strip`). -/
def dropTrailing (p : Char → Bool) : List Char → List Char
  | [] => []
  | c :: cs =>
    match dropTrailing p cs with
    | [] => if p c then [] else [c]
    | r => c :: r

/-- Stage 5: `.strip('-_.')`. -/
def stripEnds (s : List Char) : List Char :=
  dropTrailing isStripChar (s.dropWhile isStripChar)

/-- `sanitize_filename` (source lines 73–84) on raw character lists. -/
def sanitizeChars (s : List Char) : List Char :=
  stripEnds (collapseDotRuns false (collapseDashRuns false (keepAllowed (asciiIgnore s))))

/-- `sanitize_filename` on strings. -/
def sanitize_filename (s : String) : String := ⟨sanitizeChars s.data⟩

/-! ## `escape_xml` (source lines 86–92)

`str_input.replace("&", "&amp;").replace("<", "&lt;").replace(">", "&gt;")`:
three sequential single-character replacements, ampersand first. -/

/-- Python `str.replace(pat, repl)` for a single-character pattern:
replace every occurrence of `pat` by `repl`. -/
def pyReplaceChar (pat : Char) (repl : List Char) : List Char → List Char
  | [] => []
  | c :: cs => (if c = pat then repl else [c]) ++ pyReplaceChar pat repl cs

/-- The three chained replacements of `escape_xml`, ampersand first. -/
def escapeChars (s : List Char) : List Char :=
  pyReplaceChar '>' ['&', 'g', 't', ';']
    (pyReplaceChar '<' ['&', 'l', 't', ';']
      (pyReplaceChar '&' ['&', 'a', 'm', 'p', ';'] s))

/-- `escape_xml` on strings. -/
def escape_xml (s : String) : String := ⟨escapeChars s.data⟩

/-- Standard XML unescaping of the three entities `escape_xml` produces:
a scanner that decodes `&amp;` `&lt;` `&gt;` and copies everything else. -/
def unescapeChars : List Char → List Char
  | [] => []
  | c :: rest =>
    if c = '&' then
      match rest with
      | 'a' :: 'm' :: 'p' :: ';' :: r => '&' :: unescapeChars r
      | 'l' :: 't' :: ';' :: r => '<' :: unescapeChars r
      | 'g' :: 't' :: ';' :: r => '>' :: unescapeChars r
      | r => c :: unescapeChars r
    else c :: unescapeChars rest

/-- XML unescaping on strings. -/
def unescape_xml (s : String) : String := ⟨unescapeChars s.data⟩

/-! ## Data model

The JSON shapes consumed by the script (§3 of its docstring and the query
`fields` parameters), flattened into structures.  An action carries the
union of the payload fields the script reads (`data.checkItem.id` for
check-item state updates, the author display name and `data.text` for
comments); a label is read only through its `name`. -/

structure BoardRow where
  id : String
  name : String
  desc : String
  deriving Repr, DecidableEq

structure TList where
  id : String
  name : String
  pos : Int
  deriving Repr, DecidableEq

structure CheckItem where
  id : String
  name : String
  pos : Int
  state : String
  deriving Repr, DecidableEq

structure Checklist where
  name : String
  pos : Int
  checkItems : List CheckItem
  deriving Repr, DecidableEq

structure TAction where
  type : String
  date : String
  checkItemId : String
  memberName : String
  text : String
  deriving Repr, DecidableEq

structure Attachment where
  name : String
  url : String
  date : String
  deriving Repr, DecidableEq

structure Card where
  id : String
  name : String
  desc : String
  idList : String
  labels : List String
  start : Option String
  due : Option String
  dateLastActivity : Option String
  closed : Bool
  idShort : Nat
  shortUrl : String
  checklists : List Checklist
  actions : List TAction
  attachments : List Attachment
  deriving Repr, DecidableEq

/-! ## Sorting

Python's `sorted(l, key=...)` is a stable sort; modelled as stable
insertion sort with an explicit boolean comparison. -/

/-- Insert `x` into `l` before the first element `y` with `le x y`
(stable: `x` stays after earlier elements with an equal key). -/
def insertLe (le : α → α → Bool) (x : α) : List α → List α
  | [] => [x]
  | y :: ys => if le x y then x :: y :: ys else y :: insertLe le x ys

/-- Stable insertion sort: `sorted(l, key=...)`. -/
def sortLe (le : α → α → Bool) : List α → List α
  | [] => []
  | x :: xs => insertLe le x (sortLe le xs)

/-- All adjacent pairs of the list satisfy `ok`. -/
def pairwiseOk (ok : α → α → Bool) : List α → Bool
  | [] => true
  | [_] => true
  | a :: b :: t => ok a b && pairwiseOk ok (b :: t)

/-! ## Card transformer (document pass, source lines 398–538) -/

/-- `lists_get_name(listId, haystack)` (source lines 58–71): first list row
whose id matches, or the empty string. -/
def lists_get_name (listId : String) : List TList → String
  | [] => ""
  | row :: rest => if row.id == listId then row.name else lists_get_name listId rest

/-- Null dates map to the empty string; non-null dates go through the
configured UTC→local conversion and format (abstracted as `fmt`). -/
def fmtOptDate (fmt : String → String) : Option String → String
  | none => ""
  | some d => fmt d

/-- Document-pass label string (source lines 419–425): drop empty-named
labels, escape each name, join with `", "`. -/
def cardLabelsDoc (labels : List String) : String :=
  String.intercalate ", " ((labels.filter (fun l => l != "")).map escape_xml)

/-- Spreadsheet-pass label string (source lines 354–360): same join but the
names are written raw, not escaped. -/
def cardLabelsSheet (labels : List String) : String :=
  String.intercalate ", " (labels.filter (fun l => l != ""))

/-- The action filter of the check-item date scan (source lines 458–459):
type `updateCheckItemStateOnCard` and matching target check-item id. -/
def isStateUpdateFor (itemId : String) (a : TAction) : Bool :=
  a.type == "updateCheckItemStateOnCard" && a.checkItemId == itemId

/-- Source lines 453–461: scan the card's actions in order; the first one
that is a state update for this item gives the (formatted) date, and the
loop breaks; otherwise the empty string. -/
def updateCheckItemStateDate (fmtD : String → String) (actions : List TAction)
    (itemId : String) : String :=
  match actions with
  | [] => ""
  | a :: rest =>
    if isStateUpdateFor itemId a then fmtD a.date
    else updateCheckItemStateDate fmtD rest itemId

/-- One check-item context row (source lines 466–471):
`[escape_xml(name), pos, state, updateCheckItemStateDate]`. -/
structure ItemCtx where
  name : String
  pos : Int
  state : String
  stateDate : String
  deriving Repr, DecidableEq

/-- One checklist context entry (source lines 478–483):
`[escape_xml(name), pos, checkItems, pcentComplet]`. -/
structure ChecklistCtx where
  name : String
  pos : Int
  items : List ItemCtx
  pcent : String
  deriving Repr, DecidableEq

def itemLe (a b : ItemCtx) : Bool := decide (a.pos ≤ b.pos)

def checklistLe (a b : ChecklistCtx) : Bool := decide (a.pos ≤ b.pos)

/-- Round `p/q` to the nearest integer with ties to the even neighbor.
This is how IEEE-754 rounds a scaled mantissa and how Python's `round`
treats the exact value of a float; applied directly to `100·k/n` it is
also the exact-arithmetic reading of the specification's `round(100*K/N)`
(which line 476's float computation does NOT implement at ties — see
`pyRound100`). -/
def roundRatEven (p q : Nat) : Nat :=
  if 2 * (p % q) < q then p / q
  else if q < 2 * (p % q) then p / q + 1
  else if (p / q) % 2 = 0 then p / q else p / q + 1

/-- `⌊log₂ n⌋` by repeated halving.  The fuel covers every `n < 2^1100`,
beyond the whole binary64 exponent range this model works in. -/
def ilog2Aux : Nat → Nat → Nat
  | 0, _ => 0
  | fuel + 1, n => if n ≥ 2 then ilog2Aux fuel (n / 2) + 1 else 0

def ilog2 (n : Nat) : Nat := ilog2Aux 1100 n

/-- `⌊log₂ (p/q)⌋` for `p, q > 0`: the bit-length difference, corrected by
one comparison. -/
def floorLog2Rat (p q : Nat) : Int :=
  let g : Int := (ilog2 p : Int) - (ilog2 q : Int)
  if 0 ≤ g then (if q * 2 ^ g.toNat ≤ p then g else g - 1)
  else (if q ≤ p * 2 ^ (-g).toNat then g else g - 1)

/-- A non-negative binary64 value `m · 2^e`, normalized
(`2^52 ≤ m < 2^53`) or zero. -/
structure F64 where
  m : Nat
  e : Int
  deriving Repr, DecidableEq

/-- Correctly rounded binary64 division `p / q` — what Python's `k / n`
computes: the exact quotient rounded to 53 mantissa bits, ties to even
(quotients in the normal range; `k/n ∈ (0, 1]` always is). -/
def flRat (p q : Nat) : F64 :=
  if p = 0 then ⟨0, 0⟩ else
  let E := floorLog2Rat p q
  let s : Int := 52 - E
  let m := if 0 ≤ s then roundRatEven (p * 2 ^ s.toNat) q
           else roundRatEven p (q * 2 ^ (-s).toNat)
  if m = 2 ^ 53 then ⟨2 ^ 52, E - 51⟩ else ⟨m, E - 52⟩

/-- Correctly rounded binary64 multiplication by 100 — Python's `x * 100`
(100 is exactly representable, the exact product is rounded to 53 bits,
ties to even). -/
def flMul100 (x : F64) : F64 :=
  if x.m = 0 then ⟨0, 0⟩ else
  let p := x.m * 100
  let sh := ilog2 p - 52
  let m := roundRatEven p (2 ^ sh)
  if m = 2 ^ 53 then ⟨2 ^ 52, x.e + sh + 1⟩ else ⟨m, x.e + sh⟩

/-- Python `round(x, 0)` followed by `int(...)` for a non-negative float:
the exact (dyadic) value of `x` rounded to the nearest integer, ties to
even. -/
def roundF64 (x : F64) : Nat :=
  if 0 ≤ x.e then x.m * 2 ^ x.e.toNat
  else roundRatEven x.m (2 ^ (-x.e).toNat)

/-- Line 476's `int(round((checklistComplete / len) * 100, 0))` computed
bit-exactly in binary64: IEEE division, IEEE multiplication by 100, then
Python's `round`.  At an exact rational tie `100k/n = m + 1/2` the two
float roundings have already moved the value off the tie, so the result
follows the representation error rather than ties-to-even of the exact
rational: `pyRound100 23 40 = 57` (exact ties-to-even gives 58) and
`pyRound100 109 200 = 55` (exact ties-to-even gives 54), matching the
program's `"57%"` and `"55%"`. -/
def pyRound100 (k n : Nat) : Nat := roundF64 (flMul100 (flRat k n))

/-- `pcentComplet` for a nonempty item list (source line 476). -/
def pcentString (k n : Nat) : String := toString (pyRound100 k n) ++ "%"

/-- `checklistComplete` (source lines 462–464): items whose state is
`complete`. -/
def countComplete (items : List CheckItem) : Nat :=
  (items.filter (fun it => it.state == "complete")).length

def processCheckItem (fmtD : String → String) (actions : List TAction)
    (it : CheckItem) : ItemCtx :=
  { name := escape_xml it.name
    pos := it.pos
    state := it.state
    stateDate := updateCheckItemStateDate fmtD actions it.id }

/-- Source lines 444–483 for a single (non-empty-named) checklist: build the
item rows, sort them by position, and compute the completion percent —
empty string when the checklist has no items (the `if checkItems:` guard
leaves the initial `pcentComplet = ''` in place). -/
def processChecklist (fmtD : String → String) (actions : List TAction)
    (cl : Checklist) : ChecklistCtx :=
  { name := escape_xml cl.name
    pos := cl.pos
    items := sortLe itemLe (cl.checkItems.map (processCheckItem fmtD actions))
    pcent :=
      if cl.checkItems.length = 0 then ""
      else pcentString (countComplete cl.checkItems) cl.checkItems.length }

/-- Source lines 439–486: drop empty-named checklists, process the rest,
sort by position.  (The source re-sorts the accumulated list after each
append; iterated stable sorting of a growing list equals one final stable
sort, which is what this definition performs.) -/
def processChecklists (fmtD : String → String) (actions : List TAction)
    (cls : List Checklist) : List ChecklistCtx :=
  sortLe checklistLe ((cls.filter (fun cl => cl.name != "")).map (processChecklist fmtD actions))

/-- Source lines 489–498: comment actions, in scan order:
`(formatted date, escaped author display name, escaped text)`. -/
def processComments (fmtDT : String → String) (actions : List TAction) :
    List (String × String × String) :=
  (actions.filter (fun a => a.type == "commentCard")).map
    (fun a => (fmtDT a.date, escape_xml a.memberName, escape_xml a.text))

/-! ## HTTP outcomes and the attachment download loop -/

/-- The outcome of one `requests.request` call: a raised transport
exception, or a response with a status code and a body. -/
inductive HttpResult where
  | exc : HttpResult
  | ok (status : Nat) (body : String) : HttpResult
  deriving Repr, DecidableEq

/-- Whether an HTTP outcome is a transport exception. -/
def HttpResult.isExc : HttpResult → Bool
  | .exc => true
  | .ok _ _ => false

/-- The board / list / card fetches (source lines 171–191, 227–243,
257–264, 408–413): a transport exception or a non-200 status ends the run
(`sys.exit` after the status check; the list and per-card fetches have no
`try`, so an exception terminates the process as an uncaught error).
`Except.error` marks run termination. -/
def fetchOrAbort : HttpResult → Except Unit String
  | .exc => .error ()
  | .ok s body => if s = 200 then .ok body else .error ()

/-- Attachment file name (source line 506):
`sanitize_filename(str(idShort) + "-" + name)`. -/
def attachmentFileName (idShort : Nat) (name : String) : String :=
  sanitize_filename (toString idShort ++ "-" ++ name)

/-- The attachment download loop (source lines 500–525), with each
attachment paired with its download outcome.  A transport exception hits
the `except: ... continue` branch: the attachment is skipped (no file, no
context entry).  Any actual response is processed without inspecting
`status_code`: its body is written to the attachment file and
`(fileName, formatted date)` is appended to the context.  Returns the
attachment context list and the `(fileName, content)` files written. -/
def processAttachments (fmtD : String → String) (idShort : Nat) :
    List (Attachment × HttpResult) → List (String × String) × List (String × String)
  | [] => ([], [])
  | (att, res) :: rest =>
    let fn := attachmentFileName idShort att.name
    match res with
    | .exc => processAttachments fmtD idShort rest
    | .ok _ body =>
      let (ctx, files) := processAttachments fmtD idShort rest
      ((fn, fmtD att.date) :: ctx, (fn, body) :: files)

/-! ## Template context (source lines 527–538) -/

structure DocContext where
  title : String
  list : String
  labels : String
  startDate : String
  dueDate : String
  lastActivityDate : String
  description : String
  checklists : List ChecklistCtx
  actions : List (String × String × String)
  attachments : List (String × String)
  deriving Repr, DecidableEq

/-- The rendering context of one card (source lines 527–538).  `fmtD` /
`fmtDT` are the configured date-only and date-time formatters;
`attachmentsCtx` is the context list produced by the download loop.
Note line 531: `escape_xml(cardLabels)` is applied to `cardLabelsDoc`,
whose labels were already escaped one by one at line 424. -/
def buildContext (fmtD fmtDT : String → String) (lists : List TList)
    (attachmentsCtx : List (String × String)) (card : Card) : DocContext :=
  { title := escape_xml card.name
    list := escape_xml (lists_get_name card.idList lists)
    labels := escape_xml (cardLabelsDoc card.labels)
    startDate := fmtOptDate fmtD card.start
    dueDate := fmtOptDate fmtDT card.due
    lastActivityDate := fmtOptDate fmtDT card.dateLastActivity
    description := escape_xml card.desc
    checklists := processChecklists fmtD card.actions card.checklists
    actions := processComments fmtDT card.actions
    attachments := attachmentsCtx }

/-! ## Spreadsheet pass (source lines 341–388) and save locations -/

/-- `str(closed)` for a JSON boolean. -/
def pyStrBool (b : Bool) : String := if b then "True" else "False"

/-- One spreadsheet data row (source lines 364–372 / 376–384), cells in
column order; the short id is shown as its decimal string. -/
def sheetRow (fmtD fmtDT : String → String) (lists : List TList) (c : Card) :
    List String :=
  [lists_get_name c.idList lists, c.name, c.desc,
   fmtOptDate fmtD c.start, fmtOptDate fmtDT c.due,
   fmtOptDate fmtDT c.dateLastActivity,
   cardLabelsSheet c.labels, toString c.idShort, c.shortUrl]

/-- The card loop of the spreadsheet pass (source lines 343–385): each
card's row goes to worksheet 1 (open) when `str(closed) == 'False'`,
otherwise to worksheet 2 (archived), in card order. -/
def spreadsheetSheets (fmtD fmtDT : String → String) (lists : List TList) :
    List Card → List (List String) × List (List String)
  | [] => ([], [])
  | c :: rest =>
    let (w1, w2) := spreadsheetSheets fmtD fmtDT lists rest
    if pyStrBool c.closed = "False" then (sheetRow fmtD fmtDT lists c :: w1, w2)
    else (w1, sheetRow fmtD fmtDT lists c :: w2)

def pathToCards : String := "./exports/" ++ "cards/"

def pathToArchived : String := "./exports/" ++ "archived/"

/-- Where the rendered document is saved (source lines 546–551): the
`cards/` directory when `str(closed) == 'False'`, else `archived/`. -/
def saveDir (c : Card) : String :=
  if pyStrBool c.closed = "False" then pathToCards else pathToArchived

/-! ## Board fetch and selection (source lines 162–215) -/

/-- Lexicographic order on character lists by code point — the order
Python's `<` uses on `str`. -/
def charListLe : List Char → List Char → Bool
  | [], _ => true
  | _ :: _, [] => false
  | x :: xs, y :: ys => if x < y then true else if y < x then false else charListLe xs ys

def strLe (s t : String) : Bool := charListLe s.data t.data

def boardLe (a b : BoardRow) : Bool := strLe a.name b.name

/-- Source line 186: `boards = sorted(boards, key=lambda x: x[1])` — the
fetched board rows, sorted by name before any display or selection. -/
def fetchBoards (raw : List BoardRow) : List BoardRow := sortLe boardLe raw

/-- Source line 198: the interactive prompt runs only when more than one
board exists. -/
def promptOccurs (boards : List BoardRow) : Bool := decide (1 < boards.length)

/-- Source lines 197–215: `num = 0`; when more than one board exists, `num`
is read from the prompt (validated to `0 ≤ num < len(boards)` by the retry
loop); then `boards[num]` is read.  The indexing is total here
(`List.get?`): `none` is Python's uncaught `IndexError`, not a graceful
exit. -/
def boardSelection (raw : List BoardRow) (input : Nat) : Option BoardRow :=
  let boards := fetchBoards raw
  let num := if 1 < boards.length then input else 0
  boards[num]?

/-! ## Characterizations used by the theorems -/

/-- What `escape_xml` substitutes for one character. -/
def encodeChar (c : Char) : List Char :=
  if c = '&' then ['&', 'a', 'm', 'p', ';']
  else if c = '<' then ['&', 'l', 't', ';']
  else if c = '>' then ['&', 'g', 't', ';']
  else [c]

/-- The body carried by an HTTP outcome (empty for an exception). -/
def HttpResult.bodyOr : HttpResult → String
  | .exc => ""
  | .ok _ body => body

/-- A character `sanitize_filename` can emit: ASCII alphanumeric, dot or
hyphen. -/
def isOutChar (c : Char) : Bool := c.isAlphanum || c = '.' || c = '-'

/-- No two adjacent characters are both in the `[-_\s]` class. -/
abbrev dashPairFree (l : List Char) : Bool :=
  pairwiseOk (fun a b => !(isDashRun a && isDashRun b)) l

/-- No two adjacent dots. -/
abbrev dotPairFree (l : List Char) : Bool :=
  pairwiseOk (fun a b => !(a == '.' && b == '.')) l

/-! ## Concrete fixtures for witnesses and counterexamples -/

/-- A card whose single label name contains an ampersand. -/
def wCard : Card :=
  { id := "c1", name := "Card", desc := "d", idList := "l1", labels := ["A&B"]
    start := none, due := none, dateLastActivity := none, closed := false
    idShort := 1, shortUrl := "u", checklists := [], actions := [], attachments := [] }

/-- A checklist with three items, one complete. -/
def wChecklist : Checklist :=
  { name := "Tasks", pos := 0
    checkItems := [{ id := "i1", name := "a", pos := 0, state := "complete" },
                   { id := "i2", name := "b", pos := 1, state := "incomplete" },
                   { id := "i3", name := "c", pos := 2, state := "incomplete" }] }

/-- The document context entry produced for `wChecklist`. -/
def wEntry : ChecklistCtx := processChecklist (fun d => d) [] wChecklist

/-- A checklist with 40 items of which 23 are complete:
`100·23/40 = 57.5`, an exact rational tie. -/
def wChecklist40 : Checklist :=
  { name := "Many", pos := 0
    checkItems := (List.range 40).map (fun i =>
      { id := toString i, name := toString i, pos := (i : Int)
        state := if i < 23 then "complete" else "incomplete" }) }

def wBoardA : BoardRow := { id := "idA", name := "Alpha", desc := "" }

def wBoardB : BoardRow := { id := "idB", name := "Beta", desc := "" }

/-! # Theorems -/

/-! ## XML escaping -/

theorem pyReplaceChar_append (pat : Char) (repl : List Char) (s t : List Char) :
    pyReplaceChar pat repl (s ++ t) = pyReplaceChar pat repl s ++ pyReplaceChar pat repl t := by
  induction s with
  | nil => rfl
  | cons c cs ih => simp [pyReplaceChar, ih]

/-- `escape_xml` acts character by character: replacing the ampersands
first means the later passes never touch the introduced entities. -/
theorem escapeChars_cons (c : Char) (t : List Char) :
    escapeChars (c :: t) = encodeChar c ++ escapeChars t := by
  by_cases h1 : c = '&'
  · subst h1; simp [escapeChars, encodeChar, pyReplaceChar, pyReplaceChar_append]
  · by_cases h2 : c = '<'
    · subst h2; simp [escapeChars, encodeChar, pyReplaceChar, pyReplaceChar_append]
    · by_cases h3 : c = '>'
      · subst h3; simp [escapeChars, encodeChar, pyReplaceChar, pyReplaceChar_append]
      · simp [escapeChars, encodeChar, pyReplaceChar, pyReplaceChar_append, h1, h2, h3]

theorem unescapeChars_cons_ne {c : Char} (t : List Char) (h : ¬ c = '&') :
    unescapeChars (c :: t) = c :: unescapeChars t := by
  rw [unescapeChars.eq_def]
  simp [h]

theorem unescapeChars_escapeChars (s : List Char) :
    unescapeChars (escapeChars s) = s := by
  induction s with
  | nil => rfl
  | cons c t ih =>
    rw [escapeChars_cons]
    by_cases h1 : c = '&'
    · subst h1
      show unescapeChars ('&' :: 'a' :: 'm' :: 'p' :: ';' :: escapeChars t) = _
      rw [show unescapeChars ('&' :: 'a' :: 'm' :: 'p' :: ';' :: escapeChars t) =
            '&' :: unescapeChars (escapeChars t) from rfl, ih]
    · by_cases h2 : c = '<'
      · subst h2
        show unescapeChars ('&' :: 'l' :: 't' :: ';' :: escapeChars t) = _
        rw [show unescapeChars ('&' :: 'l' :: 't' :: ';' :: escapeChars t) =
              '<' :: unescapeChars (escapeChars t) from rfl, ih]
      · by_cases h3 : c = '>'
        · subst h3
          show unescapeChars ('&' :: 'g' :: 't' :: ';' :: escapeChars t) = _
          rw [show unescapeChars ('&' :: 'g' :: 't' :: ';' :: escapeChars t) =
                '>' :: unescapeChars (escapeChars t) from rfl, ih]
        · rw [show encodeChar c = [c] from by simp [encodeChar, h1, h2, h3]]
          rw [List.singleton_append, unescapeChars_cons_ne _ h1, ih]

/-- C10: the escape function is losslessly reversible — standard XML
unescaping of the escaped output recovers the original string — and hence
injective: distinct inputs never escape to the same output. -/
theorem escape_xml_roundtrip (s t : String) :
    unescape_xml (escape_xml s) = s ∧ (escape_xml s = escape_xml t → s = t) := by
  constructor
  · cases s with
    | mk d =>
      show String.mk (unescapeChars (escapeChars d)) = String.mk d
      rw [unescapeChars_escapeChars]
  · intro h
    have hd : escapeChars s.data = escapeChars t.data := congrArg String.data h
    have hdata : s.data = t.data := by
      have h2 := congrArg unescapeChars hd
      rwa [unescapeChars_escapeChars, unescapeChars_escapeChars] at h2
    cases s; cases t; exact congrArg String.mk hdata

/-- Witness for C10 at the concrete string `"a&<b"`. -/
theorem escape_xml_roundtrip_witness :
    unescape_xml (escape_xml "a&<b") = "a&<b" ∧ ("a&<b" : String) = "a&<b" :=
  ⟨(escape_xml_roundtrip "a&<b" "a&<b").1, (escape_xml_roundtrip "a&<b" "a&<b").2 rfl⟩

/-! ## Check-item state-change date (C6) -/

theorem updateCheckItemStateDate_eq_find (fmtD : String → String)
    (actions : List TAction) (itemId : String) :
    updateCheckItemStateDate fmtD actions itemId =
      match actions.find? (isStateUpdateFor itemId) with
      | some a => fmtD a.date
      | none => "" := by
  induction actions with
  | nil => rfl
  | cons a rest ih =>
    by_cases h : isStateUpdateFor itemId a
    · simp [updateCheckItemStateDate, List.find?_cons_of_pos, h]
    · rw [show updateCheckItemStateDate fmtD (a :: rest) itemId =
            updateCheckItemStateDate fmtD rest itemId from by
              simp [updateCheckItemStateDate, h],
          List.find?_cons_of_neg _ (by simpa using h), ih]

/-- C6: a check-item's derived last-state-change date is the (formatted)
date of the first action in scan order whose type is
`updateCheckItemStateOnCard` and whose target check-item id matches; the
scan stops at the first match, and with no match the date is the empty
string. -/
theorem check_item_last_state_date (fmtD : String → String)
    (actions : List TAction) (it : CheckItem) :
    (processCheckItem fmtD actions it).stateDate =
      match actions.find? (isStateUpdateFor it.id) with
      | some a => fmtD a.date
      | none => "" :=
  updateCheckItemStateDate_eq_find fmtD actions it.id

/-! ## Double-escaped labels (C1) -/

/-- C1 (code bug): the document context's `labels` field is the escape of
the already per-label-escaped joined string — escaped twice, not once.  For
a card with the single label `A&B`, the context holds `A&amp;amp;B`, while
a single escape yields `A&amp;B`. -/
theorem labels_double_escaped :
    (buildContext (fun d => d) (fun d => d) [] [] wCard).labels = "A&amp;amp;B"
  ∧ (buildContext (fun d => d) (fun d => d) [] [] wCard).labels = escape_xml (escape_xml "A&B")
  ∧ escape_xml "A&B" = "A&amp;B"
  ∧ ((buildContext (fun d => d) (fun d => d) [] [] wCard).labels == escape_xml "A&B")
      = false := by
  refine ⟨by decide, by decide, by decide, by decide⟩

/-! ## Attachment downloads and fetch failures (C5) -/

/-- C5 counterexample: an attachment download that returns a non-200
response (status 404) is NOT skipped — the attachment stays in the context
and the response body is written to the attachment file. -/
theorem attachment_non200_not_skipped :
    processAttachments (fun d => d) 7
        [({ name := "file.txt", url := "u", date := "D" }, .ok 404 "oops")] =
      ([("7-file.txt", "D")], [("7-file.txt", "oops")]) := by
  decide

/-- C5 (amended): a transport exception during an attachment download skips
exactly that attachment (no context entry, no file) and processing
continues; every actual response — status checked nowhere — yields both a
context entry and a written file with the response body.  The board / list
/ card fetches abort the run on a transport exception or any non-200
status. -/
theorem attachment_error_handling (fmtD : String → String) (idShort : Nat)
    (downloads : List (Attachment × HttpResult)) :
    processAttachments fmtD idShort downloads =
      ((downloads.filter fun p => !p.2.isExc).map
         (fun p => (attachmentFileName idShort p.1.name, fmtD p.1.date)),
       (downloads.filter fun p => !p.2.isExc).map
         (fun p => (attachmentFileName idShort p.1.name, p.2.bodyOr)))
  ∧ fetchOrAbort .exc = .error ()
  ∧ ∀ s body, fetchOrAbort (.ok s body) = if s = 200 then .ok body else .error () := by
  refine ⟨?_, rfl, fun s body => rfl⟩
  induction downloads with
  | nil => rfl
  | cons p rest ih =>
    obtain ⟨att, res⟩ := p
    cases res with
    | exc => simpa [processAttachments, HttpResult.isExc] using ih
    | ok s b => simp [processAttachments, HttpResult.isExc, HttpResult.bodyOr, ih]

/-! ## Open / archived split (C4) -/

theorem length_filter_not_add (p : α → Bool) (l : List α) :
    (l.filter fun a => !(p a)).length + (l.filter p).length = l.length := by
  induction l with
  | nil => rfl
  | cons a t ih => by_cases h : p a <;> simp [h, ih] <;> omega

/-- C4: every card's row goes to exactly one sheet — worksheet 1 exactly
when the closed flag is false, worksheet 2 exactly when it is true — and
the rendered document is saved to `cards/` or `archived/` by the same flag;
the two buckets partition the card collection. -/
theorem card_open_archived_split (fmtD fmtDT : String → String)
    (lists : List TList) (cards : List Card) :
    spreadsheetSheets fmtD fmtDT lists cards =
      ((cards.filter fun c => !c.closed).map (sheetRow fmtD fmtDT lists),
       (cards.filter fun c => c.closed).map (sheetRow fmtD fmtDT lists))
  ∧ (cards.filter fun c => !c.closed).length
      + (cards.filter fun c => c.closed).length = cards.length
  ∧ (∀ c : Card, saveDir c = if c.closed then pathToArchived else pathToCards)
  ∧ (∀ c : Card, (saveDir c = pathToCards ↔ c.closed = false)
      ∧ (saveDir c = pathToArchived ↔ c.closed = true))
  ∧ (pathToCards == pathToArchived) = false := by
  refine ⟨?_, length_filter_not_add (fun c => c.closed) cards, ?_, ?_, by decide⟩
  · induction cards with
    | nil => rfl
    | cons c rest ih =>
      cases hc : c.closed <;>
        simp [spreadsheetSheets, pyStrBool, hc, ih]
  · intro c
    cases hc : c.closed <;> simp [saveDir, pyStrBool, hc]
  · intro c
    cases hc : c.closed <;> simp [saveDir, pyStrBool, hc] <;> decide

/-! ## Stable insertion sort: permutation and sortedness -/

theorem insertLe_perm (le : α → α → Bool) (x : α) (l : List α) :
    (insertLe le x l).Perm (x :: l) := by
  induction l with
  | nil => exact List.Perm.refl _
  | cons y ys ih =>
    by_cases h : le x y
    · simp only [insertLe, if_pos h]
      exact List.Perm.refl _
    · simp only [insertLe, if_neg h]
      exact (ih.cons y).trans (List.Perm.swap x y ys)

theorem sortLe_perm (le : α → α → Bool) (l : List α) : (sortLe le l).Perm l := by
  induction l with
  | nil => exact List.Perm.refl _
  | cons x xs ih => exact (insertLe_perm le x (sortLe le xs)).trans (ih.cons x)

theorem pairwiseOk_tail {ok : α → α → Bool} {a : α} {l : List α}
    (h : pairwiseOk ok (a :: l) = true) : pairwiseOk ok l = true := by
  cases l with
  | nil => rfl
  | cons b t =>
    simp only [pairwiseOk, Bool.and_eq_true] at h
    exact h.2

theorem pairwiseOk_head {ok : α → α → Bool} {a b : α} {l : List α}
    (h : pairwiseOk ok (a :: l) = true) (hb : l.head? = some b) : ok a b = true := by
  cases l with
  | nil => simp at hb
  | cons c t =>
    simp only [List.head?_cons, Option.some.injEq] at hb
    subst hb
    simp only [pairwiseOk, Bool.and_eq_true] at h
    exact h.1

theorem pairwiseOk_cons {ok : α → α → Bool} {a : α} {l : List α}
    (hl : pairwiseOk ok l = true) (hh : ∀ b, l.head? = some b → ok a b = true) :
    pairwiseOk ok (a :: l) = true := by
  cases l with
  | nil => rfl
  | cons b t =>
    simp only [pairwiseOk, Bool.and_eq_true]
    exact ⟨hh b rfl, hl⟩

theorem insertLe_head (le : α → α → Bool) (x : α) (l : List α) :
    (insertLe le x l).head? = some x ∨ (insertLe le x l).head? = l.head? := by
  cases l with
  | nil => left; rfl
  | cons y ys =>
    by_cases h : le x y
    · left; simp [insertLe, h]
    · right; simp [insertLe, h]

theorem insertLe_pairwise {le : α → α → Bool}
    (htot : ∀ a b, le a b = true ∨ le b a = true) (x : α) {l : List α}
    (h : pairwiseOk le l = true) : pairwiseOk le (insertLe le x l) = true := by
  induction l with
  | nil => rfl
  | cons y ys ih =>
    by_cases hxy : le x y
    · simp only [insertLe, if_pos hxy]
      exact pairwiseOk_cons h (fun b hb => by
        simp only [List.head?_cons, Option.some.injEq] at hb
        exact hb ▸ hxy)
    · simp only [insertLe, if_neg hxy]
      apply pairwiseOk_cons (ih (pairwiseOk_tail h))
      intro b hb
      rcases insertLe_head le x ys with h1 | h1
      · rw [h1, Option.some.injEq] at hb
        subst hb
        rcases htot x y with h' | h'
        · exact absurd h' hxy
        · exact h'
      · rw [h1] at hb
        exact pairwiseOk_head h hb

theorem sortLe_pairwise {le : α → α → Bool}
    (htot : ∀ a b, le a b = true ∨ le b a = true) (l : List α) :
    pairwiseOk le (sortLe le l) = true := by
  induction l with
  | nil => rfl
  | cons x xs ih => exact insertLe_pairwise htot x ih

/-! ## Board selection (C7, C8) -/

theorem charListLe_total : ∀ x y : List Char, charListLe x y = true ∨ charListLe y x = true := by
  intro x
  induction x with
  | nil => intro y; left; rfl
  | cons a xs ih =>
    intro y
    cases y with
    | nil => right; rfl
    | cons b ys =>
      by_cases hab : a < b
      · left; simp [charListLe, hab]
      · by_cases hba : b < a
        · right; simp [charListLe, hba]
        · rcases ih ys with h | h
          · left; simp [charListLe, hab, hba, h]
          · right; simp [charListLe, hab, hba, h]

theorem boardLe_total : ∀ a b : BoardRow, boardLe a b = true ∨ boardLe b a = true := by
  intro a b
  exact charListLe_total a.name.data b.name.data

/-- C7: the board list shown by the prompt is sorted lexicographically by
name (the fetch step sorts before anything is displayed), and with exactly
one board no prompt occurs and that board is selected automatically. -/
theorem board_display_order_and_autoselect (raw : List BoardRow) (input : Nat)
    (b : BoardRow) :
    pairwiseOk boardLe (fetchBoards raw) = true
  ∧ (raw = [b] → promptOccurs (fetchBoards raw) = false
      ∧ boardSelection raw input = some b) := by
  refine ⟨sortLe_pairwise boardLe_total raw, fun hb => ?_⟩
  subst hb
  exact ⟨rfl, rfl⟩

/-- Witness for C7: a one-board list. -/
theorem board_display_order_witness :
    pairwiseOk boardLe (fetchBoards [wBoardA]) = true
  ∧ (promptOccurs (fetchBoards [wBoardA]) = false
      ∧ boardSelection [wBoardA] 0 = some wBoardA) :=
  ⟨(board_display_order_and_autoselect [wBoardA] 0 wBoardA).1,
   (board_display_order_and_autoselect [wBoardA] 0 wBoardA).2 rfl⟩

/-- C8: with an empty board list the selection step's `boards[0]` is out of
bounds (`none` — Python's uncaught `IndexError`, not a graceful exit);
with a non-empty list and a validated prompt answer the selection always
yields a board. -/
theorem board_selection_empty_vs_nonempty (raw : List BoardRow) (input : Nat) :
    boardSelection [] input = none
  ∧ (raw ≠ [] → (1 < raw.length → input < raw.length) →
      (boardSelection raw input).isSome = true) := by
  constructor
  · rfl
  · intro hne hin
    unfold boardSelection
    have hlen : (fetchBoards raw).length = raw.length := (sortLe_perm boardLe raw).length_eq
    by_cases h1 : 1 < (fetchBoards raw).length
    · simp only [if_pos h1]
      have hi : input < (fetchBoards raw).length := by
        rw [hlen]
        exact hin (hlen ▸ h1)
      rw [List.getElem?_eq_getElem hi]
      rfl
    · simp only [if_neg h1]
      have h0 : 0 < (fetchBoards raw).length := by
        rw [hlen]
        cases raw with
        | nil => exact absurd rfl hne
        | cons _ _ => simp
      rw [List.getElem?_eq_getElem h0]
      rfl

/-- Witness for C8: empty list and a concrete two-board list. -/
theorem board_selection_empty_witness :
    boardSelection [] 0 = none ∧ (boardSelection [wBoardA, wBoardB] 1).isSome = true :=
  ⟨(board_selection_empty_vs_nonempty [] 0).1,
   (board_selection_empty_vs_nonempty [wBoardA, wBoardB] 1).2 (by decide) (fun _ => by decide)⟩

/-! ## Checklist completion percent (C2) -/

theorem processChecklist_items_length (fmtD : String → String) (actions : List TAction)
    (cl : Checklist) :
    (processChecklist fmtD actions cl).items.length = cl.checkItems.length := by
  show (sortLe itemLe (cl.checkItems.map (processCheckItem fmtD actions))).length = _
  rw [(sortLe_perm itemLe _).length_eq, List.length_map]

theorem processChecklist_countComplete (fmtD : String → String) (actions : List TAction)
    (cl : Checklist) :
    ((processChecklist fmtD actions cl).items.filter fun it => it.state == "complete").length
      = countComplete cl.checkItems := by
  show ((sortLe itemLe (cl.checkItems.map (processCheckItem fmtD actions))).filter _).length = _
  rw [((sortLe_perm itemLe _).filter _).length_eq, List.filter_map, List.length_map]
  rfl

theorem mem_processChecklists {fmtD : String → String} {actions : List TAction}
    {cls : List Checklist} {e : ChecklistCtx}
    (he : e ∈ processChecklists fmtD actions cls) :
    ∃ cl ∈ cls, e = processChecklist fmtD actions cl := by
  have h1 := (sortLe_perm checklistLe _).mem_iff.mp he
  rcases List.mem_map.mp h1 with ⟨cl, hcl, rfl⟩
  exact ⟨cl, (List.mem_filter.mp hcl).1, rfl⟩

/-- C2 (amended): every checklist entry of the document context carries
`""` as its completion percent when it has no items, and otherwise the
decimal string of `int(round((K/N)*100, 0))` — computed in binary64
floating point — suffixed `"%"`, where `N` is its item count and `K` its
number of `complete` items.  The spec's example holds (1 complete of 3 →
33); at exact rational ties the result follows the float representation
error rather than ties-to-even of the exact rational (23 of 40 → 57,
109 of 200 → 55). -/
theorem checklist_completion_percent (fmtD : String → String) (actions : List TAction)
    (cls : List Checklist) (e : ChecklistCtx)
    (he : e ∈ processChecklists fmtD actions cls) :
    (e.items.length = 0 → e.pcent = "")
  ∧ (0 < e.items.length →
      e.pcent = toString (pyRound100
          ((e.items.filter fun it => it.state == "complete").length) e.items.length) ++ "%")
  ∧ pyRound100 1 3 = 33 ∧ pyRound100 23 40 = 57 ∧ pyRound100 109 200 = 55 := by
  obtain ⟨cl, hcl, rfl⟩ := mem_processChecklists he
  refine ⟨?_, ?_, by decide, by decide, by decide⟩
  · intro h0
    rw [processChecklist_items_length] at h0
    show (if cl.checkItems.length = 0 then "" else _) = ""
    simp [h0]
  · intro hpos
    rw [processChecklist_items_length] at hpos
    show (if cl.checkItems.length = 0 then ""
          else pcentString (countComplete cl.checkItems) cl.checkItems.length) = _
    rw [if_neg (by omega), processChecklist_countComplete, processChecklist_items_length]
    rfl

/-- Witness for C2: three items, one complete, giving `"33%"`. -/
theorem checklist_completion_percent_witness :
    wEntry.pcent = toString (pyRound100
        ((wEntry.items.filter fun it => it.state == "complete").length)
        wEntry.items.length) ++ "%"
  ∧ pyRound100 1 3 = 33
  ∧ wEntry.pcent = "33%" :=
  ⟨(checklist_completion_percent (fun d => d) [] [wChecklist] wEntry (by decide)).2.1
      (by decide),
   (checklist_completion_percent (fun d => d) [] [wChecklist] wEntry (by decide)).2.2.1,
   by decide⟩

/-- C2 counterexample: a context checklist with 40 items, 23 complete —
the exact tie `100·23/40 = 57.5`.  The program's completion percent is
`"57%"`, while the claim's `round(100·K/N)` (round of the exact rational,
ties to even like Python's `round`) gives 58, i.e. `"58%"`. -/
theorem checklist_percent_tie_counterexample :
    (processChecklists (fun d => d) [] [wChecklist40]).map (fun e => e.pcent) = ["57%"]
  ∧ (processChecklists (fun d => d) [] [wChecklist40]).map
      (fun e => (e.items.length, (e.items.filter fun it => it.state == "complete").length))
      = [(40, 23)]
  ∧ toString (roundRatEven (100 * 23) 40) ++ "%" = "58%"
  ∧ (("57%" : String) == "58%") = false := by
  refine ⟨by decide, by decide, by decide, by decide⟩

/-! ## Filename sanitization (C3, C9)

Character-level facts first: the code-point bounds of the classes involved,
which make the classes pairwise disjoint where the proofs need it. -/

theorem isAlphanum_toNat {c : Char} (h : c.isAlphanum = true) :
    48 ≤ c.toNat ∧ c.toNat ≤ 122 := by
  simp only [Char.isAlphanum, Char.isAlpha, Char.isUpper, Char.isLower, Char.isDigit,
    Bool.or_eq_true, Bool.and_eq_true, decide_eq_true_eq] at h
  rcases h with (⟨h1, h2⟩ | ⟨h1, h2⟩) | ⟨h1, h2⟩
  · exact ⟨by have ha : (65 : Nat) ≤ c.toNat := h1; omega,
           by have hb : c.toNat ≤ (90 : Nat) := h2; omega⟩
  · exact ⟨by have ha : (97 : Nat) ≤ c.toNat := h1; omega,
           by have hb : c.toNat ≤ (122 : Nat) := h2; omega⟩
  · exact ⟨by have ha : (48 : Nat) ≤ c.toNat := h1; omega,
           by have hb : c.toNat ≤ (57 : Nat) := h2; omega⟩

theorem isOutChar_ge45 {c : Char} (h : isOutChar c = true) : 45 ≤ c.toNat := by
  simp only [isOutChar, Bool.or_eq_true, decide_eq_true_eq] at h
  rcases h with (h | h) | h
  · exact le_trans (by norm_num) (isAlphanum_toNat h).1
  · subst h; decide
  · subst h; decide

theorem isOutChar_lt128 {c : Char} (h : isOutChar c = true) : c.toNat < 128 := by
  simp only [isOutChar, Bool.or_eq_true, decide_eq_true_eq] at h
  rcases h with (h | h) | h
  · have := (isAlphanum_toNat h).2; omega
  · subst h; decide
  · subst h; decide

theorem isSpaceChar_le32 {c : Char} (h : isSpaceChar c = true) : c.toNat ≤ 32 := by
  simp only [isSpaceChar, Bool.or_eq_true, Bool.and_eq_true, decide_eq_true_eq] at h
  omega

theorem isOutChar_notSpace {c : Char} (h : isOutChar c = true) : isSpaceChar c = false := by
  cases hsc : isSpaceChar c with
  | false => rfl
  | true =>
    have h1 := isSpaceChar_le32 hsc
    have h2 := isOutChar_ge45 h
    omega

theorem isOutChar_ne_underscore {c : Char} (h : isOutChar c = true) : c ≠ '_' := by
  intro hc
  subst hc
  simp [isOutChar, Char.isAlphanum, Char.isAlpha, Char.isUpper, Char.isLower,
    Char.isDigit] at h

theorem isOutChar_dash {c : Char} (h : isOutChar c = true) (hd : isDashRun c = true) :
    c = '-' := by
  simp only [isDashRun, Bool.or_eq_true, decide_eq_true_eq] at hd
  rcases hd with (hd | hd) | hd
  · exact hd
  · exact absurd hd (isOutChar_ne_underscore h)
  · have h1 := isSpaceChar_le32 hd
    have h2 := isOutChar_ge45 h
    omega

theorem isDashRun_lt128 {c : Char} (h : isDashRun c = true) : c.toNat < 128 := by
  simp only [isDashRun, Bool.or_eq_true, decide_eq_true_eq] at h
  rcases h with (h | h) | h
  · subst h; decide
  · subst h; decide
  · have := isSpaceChar_le32 h; omega

/-! Membership in each pipeline stage. -/

theorem mem_collapseDashRuns {c : Char} :
    ∀ (prev : Bool) (s : List Char), c ∈ collapseDashRuns prev s →
      c = '-' ∨ (c ∈ s ∧ isDashRun c = false) := by
  intro prev s
  induction s generalizing prev with
  | nil => intro h; simp [collapseDashRuns] at h
  | cons a t ih =>
    intro h
    simp only [collapseDashRuns] at h
    by_cases hd : isDashRun a
    · rw [if_pos hd] at h
      cases prev with
      | true =>
        rcases ih true h with h1 | ⟨h1, h2⟩
        · exact Or.inl h1
        · exact Or.inr ⟨List.mem_cons_of_mem a h1, h2⟩
      | false =>
        rcases List.mem_cons.mp h with h1 | h1
        · exact Or.inl h1
        · rcases ih true h1 with h2 | ⟨h2, h3⟩
          · exact Or.inl h2
          · exact Or.inr ⟨List.mem_cons_of_mem a h2, h3⟩
    · rw [if_neg hd] at h
      rcases List.mem_cons.mp h with h1 | h1
      · subst h1
        exact Or.inr ⟨List.mem_cons_self c t, Bool.not_eq_true _ ▸ hd⟩
      · rcases ih false h1 with h2 | ⟨h2, h3⟩
        · exact Or.inl h2
        · exact Or.inr ⟨List.mem_cons_of_mem a h2, h3⟩

theorem mem_collapseDotRuns {c : Char} :
    ∀ (prev : Bool) (s : List Char), c ∈ collapseDotRuns prev s → c ∈ s := by
  intro prev s
  induction s generalizing prev with
  | nil => intro h; simp [collapseDotRuns] at h
  | cons a t ih =>
    intro h
    simp only [collapseDotRuns] at h
    by_cases hd : a = '.'
    · rw [if_pos hd] at h
      cases prev with
      | true => exact List.mem_cons_of_mem a (ih true h)
      | false =>
        rcases List.mem_cons.mp h with h1 | h1
        · subst h1; rw [hd]; exact List.mem_cons_self _ _
        · exact List.mem_cons_of_mem a (ih true h1)
    · rw [if_neg hd] at h
      rcases List.mem_cons.mp h with h1 | h1
      · subst h1; exact List.mem_cons_self _ _
      · exact List.mem_cons_of_mem a (ih false h1)

theorem mem_dropTrailing {c : Char} {p : Char → Bool} :
    ∀ s : List Char, c ∈ dropTrailing p s → c ∈ s := by
  intro s
  induction s with
  | nil => intro h; simp [dropTrailing] at h
  | cons a t ih =>
    intro h
    simp only [dropTrailing] at h
    cases hdt : dropTrailing p t with
    | nil =>
      rw [hdt] at h
      by_cases hp : p a
      · rw [if_pos hp] at h; simp at h
      · rw [if_neg hp] at h
        rcases List.mem_cons.mp h with h1 | h1
        · subst h1; exact List.mem_cons_self _ _
        · simp at h1
    | cons r rs =>
      rw [hdt] at h
      rcases List.mem_cons.mp h with h1 | h1
      · subst h1; exact List.mem_cons_self _ _
      · exact List.mem_cons_of_mem a (ih (hdt ▸ h1))

/-! Heads of the collapse workers, and pairwise-adjacency facts. -/

theorem collapseDashRuns_true_head {s : List Char} {c : Char}
    (h : (collapseDashRuns true s).head? = some c) : isDashRun c = false := by
  induction s with
  | nil => simp [collapseDashRuns] at h
  | cons a t ih =>
    simp only [collapseDashRuns] at h
    by_cases hd : isDashRun a
    · rw [if_pos hd] at h
      exact ih h
    · rw [if_neg hd, List.head?_cons, Option.some.injEq] at h
      subst h
      exact Bool.not_eq_true _ ▸ hd

theorem collapseDotRuns_true_head {s : List Char} {c : Char}
    (h : (collapseDotRuns true s).head? = some c) : c ≠ '.' := by
  induction s with
  | nil => simp [collapseDotRuns] at h
  | cons a t ih =>
    simp only [collapseDotRuns] at h
    by_cases hd : a = '.'
    · rw [if_pos hd] at h
      exact ih h
    · rw [if_neg hd, List.head?_cons, Option.some.injEq] at h
      subst h
      exact hd

theorem collapseDotRuns_false_head (s : List Char) :
    (collapseDotRuns false s).head? = s.head? := by
  cases s with
  | nil => rfl
  | cons a t => by_cases hd : a = '.' <;> simp [collapseDotRuns, hd]

theorem collapseDashRuns_dashFree : ∀ (prev : Bool) (s : List Char),
    dashPairFree (collapseDashRuns prev s) = true := by
  intro prev s
  induction s generalizing prev with
  | nil => rfl
  | cons a t ih =>
    simp only [collapseDashRuns]
    by_cases hd : isDashRun a
    · rw [if_pos hd]
      cases prev with
      | true => exact ih true
      | false =>
        apply pairwiseOk_cons (ih true)
        intro b hb
        rw [collapseDashRuns_true_head hb]
        simp
    · rw [if_neg hd]
      apply pairwiseOk_cons (ih false)
      intro b hb
      simp [hd]

theorem collapseDotRuns_dotFree : ∀ (prev : Bool) (s : List Char),
    dotPairFree (collapseDotRuns prev s) = true := by
  intro prev s
  induction s generalizing prev with
  | nil => rfl
  | cons a t ih =>
    simp only [collapseDotRuns]
    by_cases hd : a = '.'
    · rw [if_pos hd]
      cases prev with
      | true => exact ih true
      | false =>
        apply pairwiseOk_cons (ih true)
        intro b hb
        have := collapseDotRuns_true_head hb
        simp [this]
    · rw [if_neg hd]
      apply pairwiseOk_cons (ih false)
      intro b hb
      simp [hd]

theorem dashPairFree_collapseDotRuns : ∀ (prev : Bool) (s : List Char),
    dashPairFree s = true → dashPairFree (collapseDotRuns prev s) = true := by
  intro prev s
  induction s generalizing prev with
  | nil => intro _; rfl
  | cons a t ih =>
    intro h
    simp only [collapseDotRuns]
    by_cases hd : a = '.'
    · rw [if_pos hd]
      cases prev with
      | true => exact ih true (pairwiseOk_tail h)
      | false =>
        apply pairwiseOk_cons (ih true (pairwiseOk_tail h))
        intro b hb
        have hdot : isDashRun '.' = false := by decide
        simp [hdot]
    · rw [if_neg hd]
      apply pairwiseOk_cons (ih false (pairwiseOk_tail h))
      intro b hb
      rw [collapseDotRuns_false_head] at hb
      have hok := pairwiseOk_head h hb
      exact hok

theorem pairwiseOk_dropWhile (ok : α → α → Bool) (p : α → Bool) :
    ∀ l : List α, pairwiseOk ok l = true → pairwiseOk ok (l.dropWhile p) = true := by
  intro l
  induction l with
  | nil => intro _; rfl
  | cons a t ih =>
    intro h
    by_cases hp : p a
    · rw [List.dropWhile_cons_of_pos hp]
      exact ih (pairwiseOk_tail h)
    · rw [List.dropWhile_cons_of_neg hp]
      exact h

theorem dropTrailing_head {p : Char → Bool} :
    ∀ {l : List Char} {c : Char}, (dropTrailing p l).head? = some c → l.head? = some c := by
  intro l c h
  cases l with
  | nil => simp [dropTrailing] at h
  | cons a t =>
    simp only [dropTrailing] at h
    cases hdt : dropTrailing p t with
    | nil =>
      rw [hdt] at h
      by_cases hp : p a
      · rw [if_pos hp] at h; simp at h
      · rw [if_neg hp, List.head?_cons, Option.some.injEq] at h
        rw [List.head?_cons, h]
    | cons r rs =>
      rw [hdt, List.head?_cons, Option.some.injEq] at h
      rw [List.head?_cons, h]

theorem pairwiseOk_dropTrailing (ok : Char → Char → Bool) (p : Char → Bool) :
    ∀ l : List Char, pairwiseOk ok l = true → pairwiseOk ok (dropTrailing p l) = true := by
  intro l
  induction l with
  | nil => intro _; rfl
  | cons a t ih =>
    intro h
    simp only [dropTrailing]
    cases hdt : dropTrailing p t with
    | nil =>
      by_cases hp : p a
      · rw [if_pos hp]; rfl
      · rw [if_neg hp]; rfl
    | cons r rs =>
      apply pairwiseOk_cons
      · rw [← hdt]
        exact ih (pairwiseOk_tail h)
      · intro b hb
        rw [List.head?_cons, Option.some.injEq] at hb
        have hhead : (dropTrailing p t).head? = some b := by
          rw [hdt, List.head?_cons, hb]
        exact pairwiseOk_head h (dropTrailing_head hhead)

theorem dropWhile_head_not (p : α → Bool) :
    ∀ {l : List α} {c : α}, (l.dropWhile p).head? = some c → p c = false := by
  intro l
  induction l with
  | nil => intro c h; simp at h
  | cons a t ih =>
    intro c h
    by_cases hp : p a
    · rw [List.dropWhile_cons_of_pos hp] at h
      exact ih h
    · rw [List.dropWhile_cons_of_neg hp, List.head?_cons, Option.some.injEq] at h
      subst h
      exact Bool.not_eq_true _ ▸ hp

theorem dropTrailing_getLast_not (p : Char → Bool) :
    ∀ {l : List Char} {c : Char}, (dropTrailing p l).getLast? = some c → p c = false := by
  intro l
  induction l with
  | nil => intro c h; simp [dropTrailing] at h
  | cons a t ih =>
    intro c h
    simp only [dropTrailing] at h
    cases hdt : dropTrailing p t with
    | nil =>
      rw [hdt] at h
      by_cases hp : p a
      · rw [if_pos hp] at h; simp at h
      · rw [if_neg hp] at h
        simp only [List.getLast?_singleton, Option.some.injEq] at h
        subst h
        exact Bool.not_eq_true _ ▸ hp
    | cons r rs =>
      rw [hdt, List.getLast?_cons_cons] at h
      exact ih (hdt ▸ h)

/-! Single-step equations for the collapse workers. -/

theorem collapseDashRuns_cons_dash_false {a : Char} (s : List Char)
    (h : isDashRun a = true) :
    collapseDashRuns false (a :: s) = '-' :: collapseDashRuns true s := by
  simp [collapseDashRuns, h]

theorem collapseDashRuns_cons_dash_true {a : Char} (s : List Char)
    (h : isDashRun a = true) :
    collapseDashRuns true (a :: s) = collapseDashRuns true s := by
  simp [collapseDashRuns, h]

theorem collapseDashRuns_cons_nodash {a : Char} (s : List Char)
    (h : isDashRun a = false) (b : Bool) :
    collapseDashRuns b (a :: s) = a :: collapseDashRuns false s := by
  simp [collapseDashRuns, h]

theorem collapseDotRuns_cons_dot_false (s : List Char) :
    collapseDotRuns false ('.' :: s) = '.' :: collapseDotRuns true s := by
  simp [collapseDotRuns]

theorem collapseDotRuns_cons_dot_true (s : List Char) :
    collapseDotRuns true ('.' :: s) = collapseDotRuns true s := by
  simp [collapseDotRuns]

theorem collapseDotRuns_cons_nodot {a : Char} (s : List Char)
    (h : ¬ a = '.') (b : Bool) :
    collapseDotRuns b (a :: s) = a :: collapseDotRuns false s := by
  simp [collapseDotRuns, h]

/-! The characters a sanitized string can contain. -/

theorem mem_sanitizeChars {s : List Char} {c : Char} (h : c ∈ sanitizeChars s) :
    isOutChar c = true := by
  unfold sanitizeChars stripEnds at h
  have h1 := mem_dropTrailing _ h
  have h2 := (List.dropWhile_sublist _).mem h1
  have h3 := mem_collapseDotRuns _ _ h2
  rcases mem_collapseDashRuns _ _ h3 with hc | ⟨hmem, hnd⟩
  · subst hc; decide
  · have hall := (List.mem_filter.mp hmem).2
    simp only [Bool.or_eq_true, decide_eq_true_eq] at hall
    rcases hall with ((hdot | hw) | hsp) | hdash
    · subst hdot; decide
    · simp only [isWordChar, Bool.or_eq_true, decide_eq_true_eq] at hw
      rcases hw with ha | hu
      · simp [isOutChar, ha]
      · subst hu; simp [isDashRun] at hnd
    · simp [isDashRun, hsp] at hnd
    · subst hdash; decide

theorem sanitizeChars_dashFree (s : List Char) :
    dashPairFree (sanitizeChars s) = true := by
  unfold sanitizeChars stripEnds
  exact pairwiseOk_dropTrailing _ _ _ (pairwiseOk_dropWhile _ _ _
    (dashPairFree_collapseDotRuns _ _ (collapseDashRuns_dashFree _ _)))

theorem sanitizeChars_dotFree (s : List Char) :
    dotPairFree (sanitizeChars s) = true := by
  unfold sanitizeChars stripEnds
  exact pairwiseOk_dropTrailing _ _ _ (pairwiseOk_dropWhile _ _ _
    (collapseDotRuns_dotFree _ _))

theorem sanitizeChars_head (s : List Char) :
    (sanitizeChars s).head?.all (fun c => !isStripChar c) = true := by
  cases hh : (sanitizeChars s).head? with
  | none => rfl
  | some c =>
    have h1 : isStripChar c = false := by
      unfold sanitizeChars stripEnds at hh
      exact dropWhile_head_not _ (dropTrailing_head hh)
    simp [Option.all, h1]

theorem sanitizeChars_last (s : List Char) :
    (sanitizeChars s).getLast?.all (fun c => !isStripChar c) = true := by
  cases hh : (sanitizeChars s).getLast? with
  | none => rfl
  | some c =>
    have h1 : isStripChar c = false := by
      unfold sanitizeChars stripEnds at hh
      exact dropTrailing_getLast_not _ hh
    simp [Option.all, h1]

/-! Each stage is the identity on an already-sanitized string. -/

theorem collapseDashRuns_fix : ∀ t : List Char,
    (∀ c ∈ t, isDashRun c = true → c = '-') → dashPairFree t = true →
    collapseDashRuns false t = t := by
  intro t
  induction t with
  | nil => intro _ _; rfl
  | cons a s ih =>
    intro hmem hpair
    by_cases hd : isDashRun a
    · have ha : a = '-' := hmem a (List.mem_cons_self _ _) hd
      subst ha
      rw [collapseDashRuns_cons_dash_false s hd]
      congr 1
      cases s with
      | nil => rfl
      | cons b u =>
        have hb : isDashRun b = false := by
          have hok := pairwiseOk_head hpair (List.head?_cons : (b :: u).head? = some b)
          have hdd : isDashRun '-' = true := by decide
          simpa [hdd] using hok
        have hrec := ih (fun c hc hdc => hmem c (List.mem_cons_of_mem _ hc) hdc)
          (pairwiseOk_tail hpair)
        rw [collapseDashRuns_cons_nodash u hb false] at hrec
        rw [collapseDashRuns_cons_nodash u hb true]
        exact hrec
    · have hd' : isDashRun a = false := Bool.not_eq_true _ ▸ hd
      rw [collapseDashRuns_cons_nodash s hd' false]
      congr 1
      exact ih (fun c hc hdc => hmem c (List.mem_cons_of_mem _ hc) hdc)
        (pairwiseOk_tail hpair)

theorem collapseDotRuns_fix : ∀ t : List Char,
    dotPairFree t = true → collapseDotRuns false t = t := by
  intro t
  induction t with
  | nil => intro _; rfl
  | cons a s ih =>
    intro hpair
    by_cases hd : a = '.'
    · subst hd
      rw [collapseDotRuns_cons_dot_false s]
      congr 1
      cases s with
      | nil => rfl
      | cons b u =>
        have hb : ¬ b = '.' := by
          have hok := pairwiseOk_head hpair (List.head?_cons : (b :: u).head? = some b)
          simpa using hok
        have hrec := ih (pairwiseOk_tail hpair)
        rw [collapseDotRuns_cons_nodot u hb false] at hrec
        rw [collapseDotRuns_cons_nodot u hb true]
        exact hrec
    · rw [collapseDotRuns_cons_nodot s hd false]
      congr 1
      exact ih (pairwiseOk_tail hpair)

theorem dropWhile_fix {p : Char → Bool} {l : List Char}
    (h : l.head?.all (fun c => !p c) = true) : l.dropWhile p = l := by
  cases l with
  | nil => rfl
  | cons a t =>
    have hpa : p a = false := by simpa [Option.all] using h
    rw [List.dropWhile_cons_of_neg (by simp [hpa])]

theorem dropTrailing_cons_ne {p : Char → Bool} {t : List Char} (a : Char) {r : Char}
    {rs : List Char} (hdt : dropTrailing p t = r :: rs) :
    dropTrailing p (a :: t) = a :: r :: rs := by
  simp only [dropTrailing]
  rw [hdt]

theorem dropTrailing_fix {p : Char → Bool} : ∀ {l : List Char},
    l.getLast?.all (fun c => !p c) = true → dropTrailing p l = l := by
  intro l
  induction l with
  | nil => intro _; rfl
  | cons a t ih =>
    intro h
    cases t with
    | nil =>
      have hpa : p a = false := by simpa [Option.all, List.getLast?] using h
      simp [dropTrailing, hpa]
    | cons b u =>
      have h' : (b :: u).getLast?.all (fun c => !p c) = true := by
        rwa [List.getLast?_cons_cons] at h
      exact dropTrailing_cons_ne a (ih h')

theorem sanitizeChars_fix (s : List Char) :
    sanitizeChars (sanitizeChars s) = sanitizeChars s := by
  have hout : ∀ c ∈ sanitizeChars s, isOutChar c = true := fun c hc => mem_sanitizeChars hc
  show stripEnds (collapseDotRuns false (collapseDashRuns false
    (keepAllowed (asciiIgnore (sanitizeChars s))))) = sanitizeChars s
  rw [show asciiIgnore (sanitizeChars s) = sanitizeChars s from
    List.filter_eq_self.mpr (fun c hc => by simpa using isOutChar_lt128 (hout c hc))]
  rw [show keepAllowed (sanitizeChars s) = sanitizeChars s from
    List.filter_eq_self.mpr (fun c hc => by
      have h1 := hout c hc
      simp only [isOutChar, Bool.or_eq_true, decide_eq_true_eq] at h1
      simp only [isWordChar, Bool.or_eq_true, decide_eq_true_eq]
      tauto)]
  rw [collapseDashRuns_fix _ (fun c hc hdc => isOutChar_dash (hout c hc) hdc)
    (sanitizeChars_dashFree s)]
  rw [collapseDotRuns_fix _ (sanitizeChars_dotFree s)]
  show dropTrailing isStripChar ((sanitizeChars s).dropWhile isStripChar) = sanitizeChars s
  rw [dropWhile_fix (sanitizeChars_head s)]
  exact dropTrailing_fix (sanitizeChars_last s)

/-! A run of `[-_\s]` characters behaves exactly like a single hyphen. -/

theorem collapseDashRuns_absorb {r : List Char} (hr : ∀ c ∈ r, isDashRun c = true) :
    ∀ cs, collapseDashRuns true (r ++ cs) = collapseDashRuns true cs := by
  induction r with
  | nil => intro cs; rfl
  | cons a rr ih =>
    intro cs
    rw [List.cons_append, collapseDashRuns_cons_dash_true _ (hr a (List.mem_cons_self _ _))]
    exact ih (fun c hc => hr c (List.mem_cons_of_mem _ hc)) cs

theorem collapseDashRuns_run {r : List Char} (hne : r ≠ [])
    (hr : ∀ c ∈ r, isDashRun c = true) (b : Bool) (cs : List Char) :
    collapseDashRuns b (r ++ cs) = collapseDashRuns b ('-' :: cs) := by
  cases r with
  | nil => exact absurd rfl hne
  | cons a rr =>
    have hda : isDashRun a = true := hr a (List.mem_cons_self _ _)
    have hdd : isDashRun '-' = true := by decide
    have habs := collapseDashRuns_absorb (fun c hc => hr c (List.mem_cons_of_mem _ hc)) cs
    cases b with
    | false =>
      rw [List.cons_append, collapseDashRuns_cons_dash_false _ hda,
        collapseDashRuns_cons_dash_false _ hdd, habs]
    | true =>
      rw [List.cons_append, collapseDashRuns_cons_dash_true _ hda,
        collapseDashRuns_cons_dash_true _ hdd, habs]

theorem collapseDashRuns_congr (x : List Char) {m m' : List Char}
    (h : ∀ b, collapseDashRuns b m = collapseDashRuns b m') :
    ∀ b, collapseDashRuns b (x ++ m) = collapseDashRuns b (x ++ m') := by
  induction x with
  | nil => intro b; exact h b
  | cons a xs ih =>
    intro b
    rw [List.cons_append, List.cons_append]
    by_cases hd : isDashRun a
    · cases b with
      | true =>
        rw [collapseDashRuns_cons_dash_true _ hd, collapseDashRuns_cons_dash_true _ hd,
          ih true]
      | false =>
        rw [collapseDashRuns_cons_dash_false _ hd, collapseDashRuns_cons_dash_false _ hd,
          ih true]
    · have hd' : isDashRun a = false := Bool.not_eq_true _ ▸ hd
      rw [collapseDashRuns_cons_nodash _ hd' b, collapseDashRuns_cons_nodash _ hd' b,
        ih false]

theorem sanitizeChars_run (u v : List Char) {r : List Char} (hne : r ≠ [])
    (hr : ∀ c ∈ r, isDashRun c = true) :
    sanitizeChars (u ++ r ++ v) = sanitizeChars (u ++ '-' :: v) := by
  have hAr : asciiIgnore r = r := List.filter_eq_self.mpr (fun c hc => by
    simpa using isDashRun_lt128 (hr c hc))
  have hKr : keepAllowed r = r := List.filter_eq_self.mpr (fun c hc => by
    have h1 := hr c hc
    simp only [isDashRun, Bool.or_eq_true, decide_eq_true_eq] at h1
    simp only [isWordChar, Bool.or_eq_true, decide_eq_true_eq]
    tauto)
  have e1 : asciiIgnore (u ++ r ++ v) = asciiIgnore u ++ (r ++ asciiIgnore v) := by
    show List.filter _ ((u ++ r) ++ v) = _
    rw [List.filter_append, List.filter_append]
    rw [show List.filter (fun c => c.toNat < 128) r = r from hAr, List.append_assoc]
    rfl
  have e2 : keepAllowed (asciiIgnore u ++ (r ++ asciiIgnore v)) =
      keepAllowed (asciiIgnore u) ++ (r ++ keepAllowed (asciiIgnore v)) := by
    show List.filter _ (asciiIgnore u ++ (r ++ asciiIgnore v)) = _
    rw [List.filter_append, List.filter_append]
    rw [show List.filter (fun c => c = '.' || isWordChar c || isSpaceChar c || c = '-') r
      = r from hKr]
    rfl
  have e3 : asciiIgnore (u ++ '-' :: v) = asciiIgnore u ++ '-' :: asciiIgnore v := by
    show List.filter _ (u ++ '-' :: v) = _
    rw [List.filter_append, List.filter_cons_of_pos (by decide)]
    rfl
  have e4 : keepAllowed (asciiIgnore u ++ '-' :: asciiIgnore v) =
      keepAllowed (asciiIgnore u) ++ '-' :: keepAllowed (asciiIgnore v) := by
    show List.filter _ (asciiIgnore u ++ '-' :: asciiIgnore v) = _
    rw [List.filter_append, List.filter_cons_of_pos (by decide)]
    rfl
  show stripEnds (collapseDotRuns false (collapseDashRuns false
      (keepAllowed (asciiIgnore (u ++ r ++ v))))) =
    stripEnds (collapseDotRuns false (collapseDashRuns false
      (keepAllowed (asciiIgnore (u ++ '-' :: v)))))
  rw [e1, e2, e3, e4]
  rw [collapseDashRuns_congr (keepAllowed (asciiIgnore u))
    (fun b => collapseDashRuns_run hne hr b (keepAllowed (asciiIgnore v))) false]

/-- C3: on every input the sanitizer is idempotent; its output contains
only word characters, hyphens and dots; the output has no leading or
trailing hyphen/underscore/dot and never two adjacent `[-_\s]` characters;
and replacing any run of two or more hyphens/underscores/whitespace
characters by a single hyphen leaves the output unchanged (the run
collapses to one hyphen). -/
theorem sanitize_filename_spec (s u v : String) (r : List Char)
    (hr2 : 2 ≤ r.length) (hdash : ∀ c ∈ r, isDashRun c = true) :
    sanitize_filename (sanitize_filename s) = sanitize_filename s
  ∧ (sanitize_filename s).data.all (fun c => isWordChar c || c = '-' || c = '.') = true
  ∧ (sanitize_filename s).data.head?.all (fun c => !isStripChar c) = true
  ∧ (sanitize_filename s).data.getLast?.all (fun c => !isStripChar c) = true
  ∧ dashPairFree (sanitize_filename s).data = true
  ∧ sanitize_filename ⟨u.data ++ r ++ v.data⟩ = sanitize_filename ⟨u.data ++ '-' :: v.data⟩ := by
  refine ⟨?_, ?_, sanitizeChars_head s.data, sanitizeChars_last s.data,
    sanitizeChars_dashFree s.data, ?_⟩
  · show String.mk (sanitizeChars (sanitizeChars s.data)) = String.mk (sanitizeChars s.data)
    rw [sanitizeChars_fix]
  · rw [List.all_eq_true]
    intro c hc
    have hout := mem_sanitizeChars hc
    simp only [isOutChar, Bool.or_eq_true, decide_eq_true_eq] at hout
    simp only [isWordChar, Bool.or_eq_true, decide_eq_true_eq]
    tauto
  · show String.mk (sanitizeChars (u.data ++ r ++ v.data)) =
      String.mk (sanitizeChars (u.data ++ '-' :: v.data))
    rw [sanitizeChars_run u.data v.data (by intro h0; rw [h0] at hr2; simp at hr2) hdash]

/-- Witness for C3 at a concrete string and a concrete two-character run. -/
theorem sanitize_filename_spec_witness :
    sanitize_filename (sanitize_filename "--hello   world__x..y--")
      = sanitize_filename "--hello   world__x..y--"
  ∧ (sanitize_filename "--hello   world__x..y--").data.all
      (fun c => isWordChar c || c = '-' || c = '.') = true
  ∧ (sanitize_filename "--hello   world__x..y--").data.head?.all
      (fun c => !isStripChar c) = true
  ∧ (sanitize_filename "--hello   world__x..y--").data.getLast?.all
      (fun c => !isStripChar c) = true
  ∧ dashPairFree (sanitize_filename "--hello   world__x..y--").data = true
  ∧ sanitize_filename ⟨"x".data ++ ['-', '_'] ++ "y".data⟩
      = sanitize_filename ⟨"x".data ++ '-' :: "y".data⟩ :=
  sanitize_filename_spec "--hello   world__x..y--" "x" "y" ['-', '_']
    (by decide) (by decide)

/-- C9: the sanitizer's output never contains an underscore or a whitespace
character — stronger than the allowed set the specification states, which
still permits underscores. -/
theorem sanitize_no_underscore_ws (s : String) :
    (sanitize_filename s).data.all (fun c => !(c = '_' || isSpaceChar c)) = true := by
  rw [List.all_eq_true]
  intro c hc
  have hout := mem_sanitizeChars hc
  have h1 : c ≠ '_' := isOutChar_ne_underscore hout
  have h2 : isSpaceChar c = false := isOutChar_notSpace hout
  simp [h1, h2]

end TrelloExport
